import Mathlib

set_option maxHeartbeats 1000000
set_option maxRecDepth 8000
set_option autoImplicit false

namespace VShark

/-- Model of std::net::Ipv4Addr as four octets. -/
structure Addr where
  o1 : Nat
  o2 : Nat
  o3 : Nat
  o4 : Nat
deriving DecidableEq

/-- Header fields of an IPv4 header that run_sniffer uses: the total length field
and the source and destination addresses. -/
structure Ipv4H where
  totalLen : Nat
  src : Addr
  dst : Addr
deriving DecidableEq

instance : Inhabited Ipv4H := ⟨⟨0, ⟨0, 0, 0, 0⟩, ⟨0, 0, 0, 0⟩⟩⟩

/-- Model of etherparse Ipv4Header::from_slice on a byte slice: it requires at
least 20 bytes, version nibble 4, header length nibble at least 5, and enough
bytes for the declared header length; the total length field is not validated.
Source and destination sit at byte offsets 12 to 15 and 16 to 19. -/
def parseIpv4 (bs : List Nat) : Option Ipv4H :=
  if bs.length < 20 then none
  else if bs.getD 0 0 / 16 ≠ 4 then none
  else if bs.getD 0 0 % 16 < 5 then none
  else if bs.length < (bs.getD 0 0 % 16) * 4 then none
  else some { totalLen := bs.getD 2 0 * 256 + bs.getD 3 0,
                src := ⟨bs.getD 12 0, bs.getD 13 0, bs.getD 14 0, bs.getD 15 0⟩,
                dst := ⟨bs.getD 16 0, bs.getD 17 0, bs.getD 18 0, bs.getD 19 0⟩ }

/-- Ipv4Addr::is_unspecified: all four octets zero. -/
def isUnspec (a : Addr) : Bool := a == ⟨0, 0, 0, 0⟩

/-- Ipv4Addr::is_broadcast: all four octets 255. -/
def isBcast (a : Addr) : Bool := a == ⟨255, 255, 255, 255⟩

/-- Noise filter predicate of network.rs line 43: unspecified source, unspecified
destination, or broadcast source. The destination is not tested for broadcast. -/
def noisyH (h : Ipv4H) : Bool := isUnspec h.src || isUnspec h.dst || isBcast h.src

/-- Decimal digit character. -/
def digitChar (d : Nat) : Char := Char.ofNat (48 + d)

/-- Fuel-indexed decimal rendering of a natural number. -/
def natCharsAux : Nat → Nat → List Char
  | 0, _ => []
  | fuel + 1, n => if n < 10 then [digitChar n] else natCharsAux fuel (n / 10) ++ [digitChar (n % 10)]

/-- Decimal rendering of a natural number, as the Display impl for u8 produces. -/
def natChars (n : Nat) : List Char := natCharsAux (n + 1) n

/-- Dotted-decimal rendering of an address, as Display for Ipv4Addr. -/
def addrChars (a : Addr) : List Char :=
  natChars a.o1 ++ '.' :: (natChars a.o2 ++ '.' :: (natChars a.o3 ++ '.' :: natChars a.o4))

/-- The source-arrow-destination text that starts every summary string built at
network.rs line 65. -/
def keyOf (s d : Addr) : List Char := addrChars s ++ ' ' :: '➔' :: ' ' :: addrChars d

def httpsTag : List Char := [' ', '[', 'H', 'T', 'T', 'P', 'S', ']']

def dnsTag : List Char := [' ', '[', 'D', 'N', 'S', ']']

def sshTag : List Char := [' ', '[', 'S', 'S', 'H', ']']

/-- Port detection logic of network.rs lines 52 to 62 on the sliced frame bytes:
the destination transport port is read big-endian from bytes 22 and 23 when the
frame has at least 24 bytes, and mapped through the 443, 53, 22 table. -/
def tagOf (raw : List Nat) : List Char :=
  if 24 ≤ raw.length then
    if raw.getD 22 0 * 256 + raw.getD 23 0 = 443 then httpsTag
    else if raw.getD 22 0 * 256 + raw.getD 23 0 = 53 then dnsTag
    else if raw.getD 22 0 * 256 + raw.getD 23 0 = 22 then sshTag
    else []
  else []

/-- PacketUpdate record from network.rs lines 7 to 10. -/
structure PacketUpdate where
  summary : List Char
  raw_data : List Nat
deriving DecidableEq

/-- Record constructed and sent at network.rs lines 50 to 67 for a complete frame
found at offset i of the buffer. -/
def mkRec (b : List Nat) (i : Nat) (h : Ipv4H) : PacketUpdate :=
  { summary := keyOf h.src h.dst ++ tagOf ((b.drop i).take h.totalLen),
    raw_data := (b.drop i).take h.totalLen }

/-- Record a well-formed frame produces, independent of where it sits in the
buffer: its raw bytes are the frame itself. -/
def frameRec (f : List Nat) : PacketUpdate :=
  match parseIpv4 f with
  | some h => { summary := keyOf h.src h.dst ++ tagOf f, raw_data := f }
  | none => { summary := [], raw_data := [] }

/-- One iteration of the while loop body of network.rs lines 34 to 74: either
advance the cursor one byte, or slice a complete frame, emit its record and jump
past it. The signature byte check, the parse, the noise filter and the length
check happen in that order. -/
def scanStep (b : List Nat) (i : Nat) : Nat × Option PacketUpdate :=
  if b.getD i 0 = 69 then
    match parseIpv4 (b.drop i) with
    | some h =>
      if noisyH h then (i + 1, none)
      else if i + h.totalLen ≤ b.length then (i + h.totalLen, some (mkRec b i h))
      else (i + 1, none)
    | none => (i + 1, none)
  else (i + 1, none)

/-- Fuel-indexed run of the scan loop, collecting emitted records; the loop guard
is the saturating comparison of network.rs line 34. When the fuel runs out the
records emitted so far are returned, which models the non-terminating behaviour
the code has when a frame declares total length zero. -/
def scanAux : Nat → List Nat → Nat → List PacketUpdate → List PacketUpdate
  | 0, _, _, acc => acc
  | fuel + 1, b, i, acc =>
    if i < b.length - 20 then
      scanAux fuel b (scanStep b i).1 (acc ++ ((scanStep b i).2).toList)
    else acc

/-- Run of the scan loop from cursor 0, with fuel that suffices for every
terminating scan since the cursor otherwise strictly increases. -/
def scanBuf (b : List Nat) : List PacketUpdate := scanAux (b.length + 1) b 0 []

/-- One read iteration of run_sniffer (network.rs lines 29 to 74): append the
chunk, evict 4000 front bytes when the 8000-byte ceiling is exceeded, and scan
the whole retained buffer from cursor 0. Consumed frames are never removed. -/
def ingest (b c : List Nat) : List Nat × List PacketUpdate :=
  let b2 := if 8000 < (b ++ c).length then (b ++ c).drop 4000 else b ++ c
  (b2, scanBuf b2)

/-- State transition of the reader loop for one chunk: the new buffer and the
emissions so far. -/
def ingestStep (st : List Nat × List PacketUpdate) (c : List Nat) :
    List Nat × List PacketUpdate :=
  ((ingest st.1 c).1, st.2 ++ (ingest st.1 c).2)

/-- The whole reader loop over a sequence of read chunks, threading the buffer
and concatenating the emissions of every call. -/
def ingestAll (cs : List (List Nat)) : List Nat × List PacketUpdate :=
  cs.foldl ingestStep ([], [])

/-- Noise bytes never equal the 0x45 signature byte. -/
def noiseOK (n : List Nat) : Bool := n.all (fun x => x != 69)

/-- Well-formed filter-safe frame: starts with 0x45, its header parses, its
declared total length is exactly its own length, and it passes the noise filter. -/
def frameOK (f : List Nat) : Bool :=
  match parseIpv4 f with
  | some h => (f.getD 0 0 == 69) && decide (20 ≤ f.length) && (h.totalLen == f.length) && !(noisyH h)
  | none => false

/-- Byte stream shaped as alternating noise runs and frames, closed by a noise
tail. -/
def streamOf : List (List Nat × List Nat) → List Nat → List Nat
  | [], tail => tail
  | s :: rest, tail => s.1 ++ (s.2 ++ streamOf rest tail)

def segsOK (segs : List (List Nat × List Nat)) : Bool :=
  segs.all (fun s => noiseOK s.1 && frameOK s.2)

def bytesOK (l : List Nat) : Bool := l.all (fun x => decide (x < 256))

def addrOK (a : Addr) : Bool :=
  decide (a.o1 < 256) && decide (a.o2 < 256) && decide (a.o3 < 256) && decide (a.o4 < 256)

/-- Header a frame parses to, defaulting to the zero header. -/
def hdrOf (f : List Nat) : Ipv4H := (parseIpv4 f).getD default

/-- First index at which pat occurs as a contiguous substring, as str::find. -/
def findSub : List Char → List Char → Option Nat
  | [], pat => if pat = [] then some 0 else none
  | c :: rest, pat => if pat.isPrefixOf (c :: rest) then some 0 else (findSub rest pat).map (· + 1)

/-- Flow key extraction of main.rs lines 46 to 50: the summary text before the
first occurrence of the two-character tag opener, or the whole summary. -/
def ipPair (s : List Char) : List Char :=
  match findSub s [' ', '['] with
  | some p => s.take p
  | none => s

/-- HashMap entry or_insert(0) += 1 of main.rs lines 52 to 53, modelled on an
association list with unique keys. -/
def bump : List (List Char × Nat) → List Char → List (List Char × Nat)
  | [], k => [(k, 1)]
  | e :: rest, k => if e.1 = k then (e.1, e.2 + 1) :: rest else e :: bump rest k

def lookupC : List (List Char × Nat) → List Char → Option Nat
  | [], _ => none
  | e :: rest, k => if e.1 = k then some e.2 else lookupC rest k

/-- The loop-local application state of main.rs that the receive loop mutates. -/
structure AppSt where
  conversations : List (List Char × Nat)
  chat_history : List PacketUpdate
  selected_stream : Option (List Char)

/-- Handling of one incoming PacketUpdate (main.rs lines 45 to 59): bump the flow
count keyed by ipPair of the summary, append to history with the 50-entry cap,
and leave the selection untouched. -/
def applyUpdate (st : AppSt) (u : PacketUpdate) : AppSt :=
  { conversations := bump st.conversations (ipPair u.summary),
    chat_history :=
      if 50 < (st.chat_history ++ [u]).length then (st.chat_history ++ [u]).drop 1
      else st.chat_history ++ [u],
    selected_stream := st.selected_stream }

/-- Lowercase hexadecimal digit, matching the 02x format. -/
def hexDigitChar (d : Nat) : Char := if d < 10 then Char.ofNat (48 + d) else Char.ofNat (87 + d)

/-- The three characters pushed per byte by format_hex. -/
def hexByte (b : Nat) : List Char := [hexDigitChar (b / 16), hexDigitChar (b % 16), ' ']

/-- ASCII column rendering: graphic bytes and the space byte literally, a dot
otherwise, matching is_ascii_graphic of main.rs line 259. -/
def asciiR (b : Nat) : Char := if (33 ≤ b ∧ b ≤ 126) ∨ b = 32 then Char.ofNat b else '.'

/-- Slice chunks(16) of the Rust chunks iterator. -/
def chunks16 : List Nat → List (List Nat)
  | [] => []
  | x :: l => (x :: l.take 15) :: chunks16 (l.drop 15)
termination_by l => l.length
decreasing_by simp [List.length_drop]; omega

/-- One output row of format_hex: hex cells, blank-cell padding for a short row,
the separator, the ASCII column, and a newline. -/
def hexRow (c : List Nat) : List Char :=
  (c.map hexByte).flatten ++ (List.replicate (16 - c.length) [' ', ' ', ' ']).flatten
    ++ [' ', '|', ' '] ++ c.map asciiR ++ ['\n']

/-- Model of format_hex of main.rs lines 245 to 270. -/
def format_hex (data : List Nat) : List Char := ((chunks16 data).map hexRow).flatten

/-! List access utilities used throughout the scan proofs. -/

lemma getD_append {α : Type} (l r : List α) (j : Nat) (d : α) (h : j < l.length) :
    (l ++ r).getD j d = l.getD j d := by
  induction l generalizing j with
  | nil => simp at h
  | cons x xs ih =>
    cases j with
    | zero => rfl
    | succ n =>
      simp only [List.cons_append, List.getD_cons_succ]
      exact ih n (by simpa using h)

lemma getD_drop {α : Type} (b : List α) (i j : Nat) (d : α) :
    (b.drop i).getD j d = b.getD (i + j) d := by
  induction i generalizing b with
  | zero => simp
  | succ n ih =>
    cases b with
    | nil => simp
    | cons x xs =>
      have e : n + 1 + j = (n + j) + 1 := by omega
      rw [List.drop_succ_cons, ih xs, e, List.getD_cons_succ]

lemma getD_take {α : Type} (l : List α) (n j : Nat) (d : α) (h : j < n) :
    (l.take n).getD j d = l.getD j d := by
  induction l generalizing n j with
  | nil => simp
  | cons x xs ih =>
    cases n with
    | zero => omega
    | succ m =>
      cases j with
      | zero => rfl
      | succ k =>
        simp only [List.take_succ_cons, List.getD_cons_succ]
        exact ih m k (by omega)

lemma getD_default {α : Type} (l : List α) (j : Nat) (d : α) (h : l.length ≤ j) :
    l.getD j d = d := by
  induction l generalizing j with
  | nil => rfl
  | cons x xs ih =>
    cases j with
    | zero => simp at h
    | succ n => exact ih n (by simpa using h)

lemma getD_mem {α : Type} (l : List α) (j : Nat) (d : α) (h : j < l.length) :
    l.getD j d ∈ l := by
  induction l generalizing j with
  | nil => simp at h
  | cons x xs ih =>
    cases j with
    | zero => exact List.mem_cons_self x xs
    | succ n => exact List.mem_cons_of_mem x (ih n (by simpa using h))

lemma bytesOK_getD (l : List Nat) (j : Nat) (hb : bytesOK l = true) : l.getD j 0 < 256 := by
  by_cases h : j < l.length
  · have hm := getD_mem l j 0 h
    have := (List.all_eq_true.mp hb) _ hm
    simpa using this
  · rw [getD_default l j 0 (by omega)]; decide

lemma bytesOK_append (l r : List Nat) (hl : bytesOK l = true) (hr : bytesOK r = true) :
    bytesOK (l ++ r) = true := by
  simp only [bytesOK, List.all_eq_true] at *
  intro x hx
  rcases List.mem_append.mp hx with h | h
  · exact hl x h
  · exact hr x h

lemma bytesOK_drop (l : List Nat) (n : Nat) (hl : bytesOK l = true) :
    bytesOK (l.drop n) = true := by
  simp only [bytesOK, List.all_eq_true] at *
  intro x hx
  exact hl x (List.mem_of_mem_drop hx)

lemma noiseOK_getD (n : List Nat) (j : Nat) (hn : noiseOK n = true) (hj : j < n.length) :
    n.getD j 0 ≠ 69 := by
  have hm := getD_mem n j 0 hj
  have := (List.all_eq_true.mp hn) _ hm
  simpa using this

/-! Unfolding lemmas for the scan loop and its single step. -/

lemma scanAux_exit (b : List Nat) (i : Nat) (h : b.length ≤ i + 20) (fuel : Nat)
    (acc : List PacketUpdate) : scanAux fuel b i acc = acc := by
  cases fuel with
  | zero => rfl
  | succ f =>
    simp only [scanAux]
    rw [if_neg (by omega)]

lemma scanAux_succ (b : List Nat) (i : Nat) (h : i + 20 < b.length) (fuel : Nat)
    (acc : List PacketUpdate) :
    scanAux (fuel + 1) b i acc = scanAux fuel b (scanStep b i).1 (acc ++ ((scanStep b i).2).toList) := by
  simp only [scanAux]
  rw [if_pos (by omega)]

lemma scanStep_not69 (b : List Nat) (i : Nat) (h : b.getD i 0 ≠ 69) :
    scanStep b i = (i + 1, none) := by
  unfold scanStep
  rw [if_neg h]

lemma scanStep_noisy (b : List Nat) (i : Nat) (h : Ipv4H) (h69 : b.getD i 0 = 69)
    (hp : parseIpv4 (b.drop i) = some h) (hn : noisyH h = true) :
    scanStep b i = (i + 1, none) := by
  unfold scanStep
  rw [if_pos h69, hp]
  show (if noisyH h = true then (i + 1, none)
    else if i + h.totalLen ≤ b.length then (i + h.totalLen, some (mkRec b i h))
    else (i + 1, none)) = (i + 1, none)
  rw [if_pos hn]

lemma scanStep_incomplete (b : List Nat) (i : Nat) (h : Ipv4H) (h69 : b.getD i 0 = 69)
    (hp : parseIpv4 (b.drop i) = some h) (hn : noisyH h = false)
    (hlt : b.length < i + h.totalLen) : scanStep b i = (i + 1, none) := by
  unfold scanStep
  rw [if_pos h69, hp]
  show (if noisyH h = true then (i + 1, none)
    else if i + h.totalLen ≤ b.length then (i + h.totalLen, some (mkRec b i h))
    else (i + 1, none)) = (i + 1, none)
  have hc : ¬ (i + h.totalLen ≤ b.length) := by omega
  rw [if_neg (by rw [hn]; exact Bool.false_ne_true), if_neg hc]

lemma scanStep_emit (b : List Nat) (i : Nat) (h : Ipv4H) (h69 : b.getD i 0 = 69)
    (hp : parseIpv4 (b.drop i) = some h) (hn : noisyH h = false)
    (hle : i + h.totalLen ≤ b.length) :
    scanStep b i = (i + h.totalLen, some (mkRec b i h)) := by
  unfold scanStep
  rw [if_pos h69, hp]
  show (if noisyH h = true then (i + 1, none)
    else if i + h.totalLen ≤ b.length then (i + h.totalLen, some (mkRec b i h))
    else (i + 1, none)) = (i + h.totalLen, some (mkRec b i h))
  rw [if_neg (by rw [hn]; exact Bool.false_ne_true), if_pos hle]

/-! Facts about the header parser. -/

lemma parseIpv4_some_fields (x : List Nat) (h : Ipv4H) (hp : parseIpv4 x = some h) :
    h.totalLen = x.getD 2 0 * 256 + x.getD 3 0 ∧
    h.src = ⟨x.getD 12 0, x.getD 13 0, x.getD 14 0, x.getD 15 0⟩ ∧
    h.dst = ⟨x.getD 16 0, x.getD 17 0, x.getD 18 0, x.getD 19 0⟩ := by
  simp only [parseIpv4] at hp
  split_ifs at hp
  cases hp
  exact ⟨rfl, rfl, rfl⟩

lemma parseIpv4_eq_of_agree (x y : List Nat) (hx20 : 20 ≤ x.length) (hy20 : 20 ≤ y.length)
    (h69 : x.getD 0 0 = 69) (hag : ∀ k, k < 20 → x.getD k 0 = y.getD k 0) :
    parseIpv4 x = parseIpv4 y := by
  have h69y : y.getD 0 0 = 69 := by rw [← hag 0 (by omega)]; exact h69
  have hx4 : ¬ (x.length < (x.getD 0 0 % 16) * 4) := by rw [h69]; omega
  have hy4 : ¬ (y.length < (y.getD 0 0 % 16) * 4) := by rw [h69y]; omega
  unfold parseIpv4
  rw [if_neg (by omega : ¬ x.length < 20), if_neg (by omega : ¬ y.length < 20),
    if_neg (by rw [h69]; decide : ¬ x.getD 0 0 / 16 ≠ 4),
    if_neg (by rw [h69y]; decide : ¬ y.getD 0 0 / 16 ≠ 4),
    if_neg (by rw [h69]; decide : ¬ x.getD 0 0 % 16 < 5),
    if_neg (by rw [h69y]; decide : ¬ y.getD 0 0 % 16 < 5),
    if_neg hx4, if_neg hy4,
    hag 2 (by omega), hag 3 (by omega), hag 12 (by omega), hag 13 (by omega),
    hag 14 (by omega), hag 15 (by omega), hag 16 (by omega), hag 17 (by omega),
    hag 18 (by omega), hag 19 (by omega)]

/-! Facts about well-formed frames and segmented streams. -/

lemma frameOK_spec (f : List Nat) (hf : frameOK f = true) :
    f.getD 0 0 = 69 ∧ 20 ≤ f.length ∧
    ∃ h, parseIpv4 f = some h ∧ h.totalLen = f.length ∧ noisyH h = false := by
  unfold frameOK at hf
  cases hp : parseIpv4 f with
  | none => rw [hp] at hf; simp at hf
  | some h =>
    rw [hp] at hf
    simp only [Bool.and_eq_true, beq_iff_eq, decide_eq_true_eq, Bool.not_eq_eq_eq_not,
      Bool.not_true] at hf
    exact ⟨hf.1.1.1, hf.1.1.2, h, rfl, hf.1.2, hf.2⟩

lemma streamOf_length (segs : List (List Nat × List Nat)) (tail : List Nat) :
    tail.length ≤ (streamOf segs tail).length := by
  induction segs with
  | nil => simp [streamOf]
  | cons s rest ih =>
    simp only [streamOf, List.length_append]
    omega

lemma streamOf_ne_nil (segs : List (List Nat × List Nat)) (tail : List Nat) (h : tail ≠ []) :
    streamOf segs tail ≠ [] := by
  intro hnil
  have h1 := streamOf_length segs tail
  rw [hnil] at h1
  simp only [List.length_nil, Nat.le_zero] at h1
  exact h (List.length_eq_zero.mp h1)

lemma silent_noise (b n rest : List Nat) (i : Nat) (hd : b.drop i = n ++ rest)
    (hn : noiseOK n = true) : ∀ j, j < n.length → scanStep b (i + j) = (i + j + 1, none) := by
  intro j hj
  apply scanStep_not69
  have e : b.getD (i + j) 0 = n.getD j 0 := by
    rw [← getD_drop b i j 0, hd, getD_append n rest j 0 hj]
  rw [e]
  exact noiseOK_getD n j hn hj

lemma scan_silent (b : List Nat) (k : Nat) :
    ∀ i fuel acc, (∀ j, j < k → scanStep b (i + j) = (i + j + 1, none)) → k ≤ fuel →
    scanAux fuel b i acc = scanAux (fuel - k) b (i + k) acc := by
  induction k with
  | zero => intro i fuel acc _ _; simp
  | succ n ih =>
    intro i fuel acc hs hk
    by_cases hc : i + 20 < b.length
    · obtain ⟨fl, rfl⟩ : ∃ fl, fuel = fl + 1 := ⟨fuel - 1, by omega⟩
      rw [scanAux_succ b i hc fl acc]
      have h0 := hs 0 (by omega)
      rw [Nat.add_zero] at h0
      rw [h0]
      show scanAux fl b (i + 1) (acc ++ []) = _
      rw [List.append_nil]
      have hstep : ∀ j, j < n → scanStep b (i + 1 + j) = (i + 1 + j + 1, none) := by
        intro j hj
        have hsj := hs (j + 1) (by omega)
        have e : i + (j + 1) = i + 1 + j := by omega
        rw [e] at hsj
        exact hsj
      rw [ih (i + 1) fl acc hstep (by omega)]
      have e1 : fl - n = fl + 1 - (n + 1) := by omega
      have e2 : i + 1 + n = i + (n + 1) := by omega
      rw [e1, e2]
    · rw [scanAux_exit b i (by omega) fuel acc,
        scanAux_exit b (i + (n + 1)) (by omega) (fuel - (n + 1)) acc]

lemma scan_frame_step (b f rest : List Nat) (i fuel : Nat) (acc : List PacketUpdate)
    (hd : b.drop i = f ++ rest) (hf : frameOK f = true) (hrest : rest ≠ []) :
    scanAux (fuel + 1) b i acc = scanAux fuel b (i + f.length) (acc ++ [frameRec f]) := by
  obtain ⟨h69f, h20, h, hp, hlen, hnoisy⟩ := frameOK_spec f hf
  have hbd : (b.drop i).length = b.length - i := List.length_drop i b
  have hlen2 : b.length - i = f.length + rest.length := by
    rw [← hbd, hd, List.length_append]
  have hrl : 1 ≤ rest.length := by
    cases rest with
    | nil => exact absurd rfl hrest
    | cons x xs => simp
  have hcond : i + 20 < b.length := by omega
  have hag : ∀ k, k < 20 → f.getD k 0 = (b.drop i).getD k 0 := by
    intro k hk
    rw [hd, getD_append f rest k 0 (by omega)]
  have hpb : parseIpv4 (b.drop i) = some h := by
    rw [← parseIpv4_eq_of_agree f (b.drop i) h20 (by omega) h69f hag, hp]
  have h69b : b.getD i 0 = 69 := by
    have e := getD_drop b i 0 0
    rw [Nat.add_zero] at e
    rw [← e, hd, getD_append f rest 0 0 (by omega), h69f]
  have hle : i + h.totalLen ≤ b.length := by rw [hlen]; omega
  rw [scanAux_succ b i hcond fuel acc, scanStep_emit b i h h69b hpb hnoisy hle]
  show scanAux fuel b (i + h.totalLen) (acc ++ [mkRec b i h]) = _
  have hraw : (b.drop i).take h.totalLen = f := by
    rw [hd, hlen, List.take_left f rest]
  have hrecEq : mkRec b i h = frameRec f := by
    unfold frameRec
    rw [hp]
    show mkRec b i h = { summary := keyOf h.src h.dst ++ tagOf f, raw_data := f }
    unfold mkRec
    rw [hraw]
  rw [hrecEq, hlen]

lemma scan_stream (segs : List (List Nat × List Nat)) (tail b : List Nat) :
    ∀ i fuel acc, b.drop i = streamOf segs tail →
    segsOK segs = true → noiseOK tail = true → tail ≠ [] →
    (streamOf segs tail).length ≤ fuel →
    scanAux fuel b i acc = acc ++ segs.map (fun s => frameRec s.2) := by
  induction segs with
  | nil =>
    intro i fuel acc hd _ htail htne hfuel
    have hsil := silent_noise b tail [] i (by rw [hd]; simp [streamOf]) htail
    rw [scan_silent b tail.length i fuel acc hsil (by simpa [streamOf] using hfuel)]
    have hlen : b.length - i = tail.length := by
      rw [← List.length_drop i b, hd]
      simp [streamOf]
    rw [scanAux_exit b (i + tail.length) (by omega) (fuel - tail.length) acc]
    simp
  | cons s rest ih =>
    intro i fuel acc hd hsegs htail htne hfuel
    obtain ⟨hn, hf⟩ : noiseOK s.1 = true ∧ frameOK s.2 = true := by
      have hm := (List.all_eq_true.mp hsegs) s (List.mem_cons_self s rest)
      simpa [Bool.and_eq_true] using hm
    have hsegs2 : segsOK rest = true := by
      simp only [segsOK, List.all_eq_true] at hsegs ⊢
      intro x hx
      exact hsegs x (List.mem_cons_of_mem s hx)
    obtain ⟨h69f, h20, hhdr⟩ := frameOK_spec s.2 hf
    have hd2 : b.drop i = s.1 ++ (s.2 ++ streamOf rest tail) := by rw [hd]; rfl
    have hsl : (streamOf (s :: rest) tail).length =
        s.1.length + (s.2.length + (streamOf rest tail).length) := by
      simp [streamOf, List.length_append]
    have htl : 1 ≤ tail.length := by
      cases tail with
      | nil => exact absurd rfl htne
      | cons x xs => simp
    have hstl : tail.length ≤ (streamOf rest tail).length := streamOf_length rest tail
    have hsil := silent_noise b s.1 (s.2 ++ streamOf rest tail) i hd2 hn
    rw [scan_silent b s.1.length i fuel acc hsil (by omega)]
    obtain ⟨fl, hfl⟩ : ∃ fl, fuel - s.1.length = fl + 1 := ⟨fuel - s.1.length - 1, by omega⟩
    rw [hfl]
    have hd3 : b.drop (i + s.1.length) = s.2 ++ streamOf rest tail := by
      rw [← List.drop_drop, hd2, List.drop_left]
    rw [scan_frame_step b s.2 (streamOf rest tail) (i + s.1.length) fl acc hd3 hf
      (streamOf_ne_nil rest tail htne)]
    have hd4 : b.drop (i + s.1.length + s.2.length) = streamOf rest tail := by
      rw [← List.drop_drop, hd3, List.drop_left]
    rw [ih (i + s.1.length + s.2.length) fl (acc ++ [frameRec s.2]) hd4 hsegs2 htail htne
      (by omega)]
    simp [List.map_cons, List.append_assoc]

/-! Ingest-level helpers. -/

lemma ingest_no_evict (b c : List Nat) (h : (b ++ c).length ≤ 8000) :
    ingest b c = (b ++ c, scanBuf (b ++ c)) := by
  simp only [ingest]
  rw [if_neg (by omega)]

lemma ingest_evict (b c : List Nat) (h : 8000 < (b ++ c).length) :
    ingest b c = ((b ++ c).drop 4000, scanBuf ((b ++ c).drop 4000)) := by
  simp only [ingest]
  rw [if_pos h]

lemma frameRec_eq (f : List Nat) (h : Ipv4H) (hp : parseIpv4 f = some h) :
    frameRec f = { summary := keyOf h.src h.dst ++ tagOf f, raw_data := f } := by
  unfold frameRec
  rw [hp]

lemma hdrOf_eq (f : List Nat) (h : Ipv4H) (hp : parseIpv4 f = some h) : hdrOf f = h := by
  unfold hdrOf
  rw [hp]
  rfl

lemma scanBuf_stream (segs : List (List Nat × List Nat)) (tail : List Nat)
    (hs : segsOK segs = true) (ht : noiseOK tail = true) (htne : tail ≠ []) :
    scanBuf (streamOf segs tail) = segs.map (fun s => frameRec s.2) := by
  unfold scanBuf
  rw [scan_stream segs tail (streamOf segs tail) 0 ((streamOf segs tail).length + 1) []
    (List.drop_zero _) hs ht htne (by omega)]
  rw [List.nil_append]

lemma ingestAll_buffer_aux (cs : List (List Nat)) :
    ∀ b out, (b ++ cs.flatten).length ≤ 8000 →
    (cs.foldl ingestStep (b, out)).1 = b ++ cs.flatten := by
  induction cs with
  | nil => intro b out _; simp
  | cons c rest ih =>
    intro b out h
    simp only [List.foldl_cons, ingestStep]
    have hlen : (b ++ c).length ≤ 8000 := by
      simp only [List.flatten_cons, List.length_append] at h ⊢
      omega
    rw [ingest_no_evict b c hlen]
    have h2 : ((b ++ c) ++ rest.flatten).length ≤ 8000 := by
      simp only [List.flatten_cons, List.length_append] at h ⊢
      omega
    rw [ih (b ++ c) (out ++ scanBuf (b ++ c)) h2]
    simp [List.flatten_cons, List.append_assoc]

lemma ingestAll_buffer (cs : List (List Nat)) (h : cs.flatten.length ≤ 8000) :
    (ingestAll cs).1 = cs.flatten := by
  unfold ingestAll
  rw [ingestAll_buffer_aux cs [] [] (by simpa using h)]
  rw [List.nil_append]

/-! Concrete example inputs used by counterexamples and witnesses. -/

/-- Well-formed filter-safe 20-byte frame from 10.0.0.1 to 10.0.0.2 with total
length field 20. -/
def exFrame : List Nat := [69, 0, 0, 20, 0, 0, 0, 0, 0, 0, 0, 0, 10, 0, 0, 1, 10, 0, 0, 2]

/-- Well-formed filter-safe 24-byte frame from 10.0.0.1 to 10.0.0.2 with total
length field 24 and destination port 443. -/
def exF24 : List Nat :=
  [69, 0, 0, 24, 0, 0, 0, 0, 0, 0, 0, 0, 10, 0, 0, 1, 10, 0, 0, 2, 0, 0, 1, 187]

/-- Claim C1, counterexample to the claim as stated.
The stream exFrame ++ [0, 0] contains exactly one well-formed filter-safe frame
followed by two noise bytes that do not match the signature. Ingesting it chunked
as exFrame ++ [0] then [0] emits two records, because consumed bytes are never
removed from the buffer and every call rescans from the start; a single call over
the very same stream emits one record. The claim promises exactly one record for
every chunking. -/
theorem ingest_chunking_duplicates_record :
    ((ingestAll [exFrame ++ [0], [0]]).2).length = 2 ∧
    ((ingestAll [exFrame ++ [0, 0]]).2).length = 1 := by decide

/-- Claim C1, amended: when the whole stream is passed to a single ingest call,
with at least one trailing noise byte after the last frame and no eviction, the
framer emits exactly one record per frame, in stream order, and each record
carries the addresses of the header parsed at the start of its frame and the
frame itself as raw bytes. -/
theorem single_ingest_emits_each_frame_once
    (segs : List (List Nat × List Nat)) (tail : List Nat)
    (hs : segsOK segs = true) (ht : noiseOK tail = true) (htne : tail ≠ [])
    (hlen : (streamOf segs tail).length ≤ 8000) :
    (ingest [] (streamOf segs tail)).2 = segs.map (fun s => frameRec s.2) ∧
    ∀ s, s ∈ segs →
      (frameRec s.2).summary = keyOf (hdrOf s.2).src (hdrOf s.2).dst ++ tagOf s.2 ∧
      (frameRec s.2).raw_data = s.2 := by
  constructor
  · rw [ingest_no_evict [] (streamOf segs tail) (by simpa using hlen)]
    show scanBuf ([] ++ streamOf segs tail) = _
    rw [List.nil_append, scanBuf_stream segs tail hs ht htne]
  · intro s hsmem
    have hfok : frameOK s.2 = true := by
      have hm := (List.all_eq_true.mp hs) s hsmem
      simp only [Bool.and_eq_true] at hm
      exact hm.2
    obtain ⟨h69, h20, h, hp, hlen2, hnoisy⟩ := frameOK_spec s.2 hfok
    rw [frameRec_eq s.2 h hp, hdrOf_eq s.2 h hp]
    exact ⟨rfl, rfl⟩

/-- Claim C1 witness: one frame with empty leading noise and the noise tail [0]. -/
theorem single_ingest_emits_each_frame_once_witness :
    (ingest [] (streamOf [([], exFrame)] [0])).2 = [frameRec exFrame] := by
  have h := single_ingest_emits_each_frame_once [([], exFrame)] [0]
    (by decide) (by decide) (by decide) (by decide)
  simpa using h.1

/-- Claim C2, counterexample: the same byte stream ingested under two chunkings
emits different record sequences, refuting chunking invariance. -/
theorem chunking_changes_emitted_records :
    (ingestAll [exFrame ++ [0], [0]]).2 ≠ (ingestAll [exFrame ++ [0, 0]]).2 := by decide

/-- Claim C2, amended: what is invariant under chunking is the retained buffer,
not the emitted sequence. For streams short enough that no eviction occurs, any
two chunkings of the same stream leave the framer with the identical buffer, so
the scan emissions computed from that buffer coincide; the concatenated
per-call emissions differ because every call rescans the whole buffer. -/
theorem chunking_invariant_buffer_state (cs1 cs2 : List (List Nat))
    (hflat : cs1.flatten = cs2.flatten) (hlen : cs1.flatten.length ≤ 8000) :
    (ingestAll cs1).1 = (ingestAll cs2).1 ∧
    scanBuf (ingestAll cs1).1 = scanBuf (ingestAll cs2).1 := by
  have h1 := ingestAll_buffer cs1 hlen
  have h2 := ingestAll_buffer cs2 (by rw [← hflat]; exact hlen)
  refine ⟨?_, ?_⟩
  · rw [h1, h2, hflat]
  · rw [h1, h2, hflat]

/-- Claim C2 witness: two chunkings of a two-byte stream. -/
theorem chunking_invariant_buffer_state_witness :
    (ingestAll [[1], [2]]).1 = (ingestAll [[1, 2]]).1 ∧
    scanBuf (ingestAll [[1], [2]]).1 = scanBuf (ingestAll [[1, 2]]).1 :=
  chunking_invariant_buffer_state [[1], [2]] [[1, 2]] (by decide) (by decide)

/-- Well-formed filter-safe 20-byte frame from 10.0.0.1 to 10.0.0.3; its second
byte is 1 so that, when this frame is embedded one byte into a buffer, the outer
candidate at offset 0 declares total length 256 and stays incomplete. -/
def exInner : List Nat := [69, 1, 0, 20, 0, 0, 0, 0, 0, 0, 0, 0, 10, 0, 0, 1, 10, 0, 0, 3]

/-- Buffer whose offset 0 holds a valid filter-safe header declaring 256 total
bytes while only 23 bytes are buffered, with a complete frame at offset 1. -/
def exOuterBuf : List Nat := 69 :: exInner ++ [0, 0]

/-- Claim C3, counterexample to the claim as stated.
In exOuterBuf the candidate at offset 0 parses to a valid filter-safe header whose
declared total length 256 exceeds the 23 buffered bytes. The claim says the cursor
does not advance past this candidate, so nothing beyond offset 0 may be extracted
in this call; the code instead advances one byte and extracts a complete frame
that starts at offset 1, inside the pending candidate. -/
theorem incomplete_candidate_cursor_advances :
    ((ingestAll [exOuterBuf]).2).map (fun r => r.raw_data) = [exInner] := by decide

/-- Claim C3, amended: an incomplete candidate is not suspended; within the same
call the cursor slides one byte past it and keeps scanning. Extraction of the
candidate frame nevertheless succeeds once the remaining bytes arrive, because
the buffer keeps all bytes and every call rescans from the start: ingesting the
noise plus the first part of the frame emits nothing, and ingesting the rest of
the frame plus a noise tail then emits exactly that frame. -/
theorem incomplete_frame_resumes (p f1 f2 t : List Nat)
    (hp : noiseOK p = true) (ht : noiseOK t = true) (htne : t ≠ [])
    (hf : frameOK (f1 ++ f2) = true) (h20 : 20 ≤ f1.length) (hf2 : f2 ≠ [])
    (hinner : noiseOK (f1.drop 1) = true)
    (hsz : p.length + f1.length + f2.length + t.length ≤ 8000) :
    (ingest [] (p ++ f1)).2 = [] ∧
    (ingest (p ++ f1) (f2 ++ t)).2 = [frameRec (f1 ++ f2)] := by
  obtain ⟨h69, hflen20, h, hparse, htot, hnoisy⟩ := frameOK_spec (f1 ++ f2) hf
  have hf2len : 1 ≤ f2.length := by
    cases f2 with
    | nil => exact absurd rfl hf2
    | cons x xs => simp
  have h69f1 : f1.getD 0 0 = 69 := by
    rw [← getD_append f1 f2 0 0 (by omega)]
    exact h69
  have hparse1 : parseIpv4 f1 = some h := by
    rw [parseIpv4_eq_of_agree f1 (f1 ++ f2) h20 (by simp [List.length_append]; omega) h69f1
      (fun k hk => (getD_append f1 f2 k 0 (by omega)).symm)]
    exact hparse
  constructor
  · rw [ingest_no_evict [] (p ++ f1) (by simp [List.length_append]; omega)]
    show scanBuf ([] ++ (p ++ f1)) = []
    rw [List.nil_append]
    unfold scanBuf
    have hblen : (p ++ f1).length = p.length + f1.length := List.length_append p f1
    have hdropP : (p ++ f1).drop p.length = f1 := List.drop_left p f1
    have hsil : ∀ j, j < p.length + f1.length →
        scanStep (p ++ f1) (0 + j) = (0 + j + 1, none) := by
      intro j hj
      rw [Nat.zero_add]
      rcases Nat.lt_trichotomy j p.length with hlt | heq | hgt
      · apply scanStep_not69
        rw [getD_append p f1 j 0 hlt]
        exact noiseOK_getD p j hp hlt
      · subst heq
        have hg : (p ++ f1).getD p.length 0 = 69 := by
          have e := getD_drop (p ++ f1) p.length 0 0
          rw [Nat.add_zero] at e
          rw [← e, hdropP, h69f1]
        have hpp : parseIpv4 ((p ++ f1).drop p.length) = some h := by
          rw [hdropP]
          exact hparse1
        exact scanStep_incomplete (p ++ f1) p.length h hg hpp hnoisy
          (by rw [htot]; simp [List.length_append] at hblen ⊢; omega)
      · apply scanStep_not69
        have e1 : (p ++ f1).getD j 0 = f1.getD (j - p.length) 0 := by
          have e := getD_drop (p ++ f1) p.length (j - p.length) 0
          rw [hdropP] at e
          rw [e]
          congr 1
          omega
        rw [e1]
        have e2 : f1.getD (j - p.length) 0 = (f1.drop 1).getD (j - p.length - 1) 0 := by
          have e := getD_drop f1 1 (j - p.length - 1) 0
          rw [e]
          congr 1
          omega
        rw [e2]
        apply noiseOK_getD (f1.drop 1) (j - p.length - 1) hinner
        rw [List.length_drop]
        omega
    rw [scan_silent (p ++ f1) (p.length + f1.length) 0 ((p ++ f1).length + 1) [] hsil
      (by omega)]
    rw [scanAux_exit (p ++ f1) (0 + (p.length + f1.length)) (by omega) _ []]
  · rw [ingest_no_evict (p ++ f1) (f2 ++ t) (by simp [List.length_append]; omega)]
    show scanBuf ((p ++ f1) ++ (f2 ++ t)) = _
    have e : (p ++ f1) ++ (f2 ++ t) = streamOf [(p, f1 ++ f2)] t := by
      show (p ++ f1) ++ (f2 ++ t) = p ++ ((f1 ++ f2) ++ streamOf [] t)
      show (p ++ f1) ++ (f2 ++ t) = p ++ ((f1 ++ f2) ++ t)
      simp [List.append_assoc]
    rw [e, scanBuf_stream [(p, f1 ++ f2)] t (by simp [segsOK, hp, hf]) ht htne]
    rfl

/-- Claim C3 witness: the 24-byte frame exF24 split after its 20-byte header,
with one trailing noise byte arriving with the second part. -/
theorem incomplete_frame_resumes_witness :
    (ingest [] (exF24.take 20)).2 = [] ∧
    (ingest (exF24.take 20) (exF24.drop 20 ++ [0])).2 = [frameRec exF24] := by
  have h := incomplete_frame_resumes [] (exF24.take 20) (exF24.drop 20) [0]
    (by decide) (by decide) (by decide) (by decide) (by decide) (by decide) (by decide)
    (by decide)
  constructor
  · have h1 := h.1
    rw [List.nil_append] at h1
    exact h1
  · have h2 := h.2
    rw [List.nil_append, List.take_append_drop] at h2
    exact h2

/-- Claim C4: after appending a read chunk of at most 2048 bytes to a buffer that
respected the ceiling, the retained buffer again has at most 8000 bytes, and
whenever the ceiling was exceeded the new buffer is the appended buffer with its
4000 front bytes evicted; consequently every buffer reachable by the reader loop
from the empty buffer respects the ceiling after every call. -/
theorem ingest_buffer_bounded :
    (∀ b c : List Nat, b.length ≤ 8000 → c.length ≤ 2048 →
      (ingest b c).1.length ≤ 8000 ∧
      (8000 < b.length + c.length → (ingest b c).1 = (b ++ c).drop 4000)) ∧
    (∀ cs : List (List Nat), (∀ c, c ∈ cs → c.length ≤ 2048) →
      (ingestAll cs).1.length ≤ 8000) := by
  have part1 : ∀ b c : List Nat, b.length ≤ 8000 → c.length ≤ 2048 →
      (ingest b c).1.length ≤ 8000 ∧
      (8000 < b.length + c.length → (ingest b c).1 = (b ++ c).drop 4000) := by
    intro b c hb hc
    by_cases h : 8000 < (b ++ c).length
    · rw [ingest_evict b c h]
      refine ⟨?_, fun _ => rfl⟩
      simp only [List.length_drop, List.length_append]
      simp only [List.length_append] at h
      omega
    · rw [ingest_no_evict b c (by omega)]
      simp only [List.length_append] at h
      exact ⟨by simp only [List.length_append]; omega, fun hgt => absurd hgt h⟩
  refine ⟨part1, ?_⟩
  have hgen : ∀ cs2 : List (List Nat), ∀ b out, b.length ≤ 8000 →
      (∀ c, c ∈ cs2 → c.length ≤ 2048) →
      (cs2.foldl ingestStep (b, out)).1.length ≤ 8000 := by
    intro cs2
    induction cs2 with
    | nil => intro b out hb _; simpa using hb
    | cons c rest ih =>
      intro b out hb hcs2
      simp only [List.foldl_cons, ingestStep]
      exact ih (ingest b c).1 (out ++ (ingest b c).2)
        ((part1 b c hb (hcs2 c (List.mem_cons_self c rest))).1)
        (fun x hx => hcs2 x (List.mem_cons_of_mem c hx))
  intro cs hcs
  exact hgen cs [] [] (by simp) hcs

/-- Claim C4 witness: one small buffer and chunk, and a two-chunk run. -/
theorem ingest_buffer_bounded_witness :
    (ingest [] [0]).1.length ≤ 8000 ∧ (ingestAll [[0], [0]]).1.length ≤ 8000 :=
  ⟨(ingest_buffer_bounded.1 [] [0] (by decide) (by decide)).1,
   ingest_buffer_bounded.2 [[0], [0]] (by decide)⟩

/-- Complete 20-byte frame from 10.0.0.1 to the broadcast address
255.255.255.255. -/
def exBcastDst : List Nat :=
  [69, 0, 0, 20, 0, 0, 0, 0, 0, 0, 0, 0, 10, 0, 0, 1, 255, 255, 255, 255]

/-- Claim C5, counterexample to the claim as stated.
The buffer holds one complete frame whose destination is the broadcast address,
followed by one noise byte. The claim says no PacketRecord is emitted for such a
frame; the code only filters a broadcast source, so the frame is emitted. -/
theorem broadcast_destination_not_filtered :
    ((ingestAll [exBcastDst ++ [0]]).2).length = 1 := by decide

/-- Frame whose source address is unspecified, so the code filter rejects it; its
declared total length is 256, and no byte after the first equals 0x45. -/
def exUnspecSrc : List Nat :=
  [69, 0, 1, 0, 0, 0, 0, 0, 0, 0, 0, 0, 0, 0, 0, 0, 10, 0, 0, 2]

/-- Claim C5, amended: the filter that actually runs rejects frames with an
unspecified source, an unspecified destination or a broadcast source; a broadcast
destination is not rejected. A rejected candidate produces no record, but it is
not consumed as a whole frame: the cursor advances one byte and scanning resumes
inside the rejected extent, so a well-formed frame found after the rejected
header is still extracted in the same call. -/
theorem noise_filter_skips_frame_one_byte (fB g t : List Nat)
    (hlenB : fB.length = 20) (h69B : fB.getD 0 0 = 69)
    (hsomeB : (parseIpv4 fB).isSome = true) (hnoisy : noisyH (hdrOf fB) = true)
    (hinnerB : noiseOK (fB.drop 1) = true)
    (hg : frameOK g = true) (ht : noiseOK t = true) (htne : t ≠ [])
    (hsz : fB.length + g.length + t.length ≤ 8000) :
    (ingest [] (fB ++ (g ++ t))).2 = [frameRec g] := by
  have hpB : parseIpv4 fB = some (hdrOf fB) := by
    unfold hdrOf
    cases ho : parseIpv4 fB with
    | none => rw [ho] at hsomeB; simp at hsomeB
    | some hh => rfl
  obtain ⟨hg69, hg20, hgh, hgp, hgtot, hgnoisy⟩ := frameOK_spec g hg
  have htl : 1 ≤ t.length := by
    cases t with
    | nil => exact absurd rfl htne
    | cons x xs => simp
  have hblen : (fB ++ (g ++ t)).length = fB.length + (g.length + t.length) := by
    simp [List.length_append]
  rw [ingest_no_evict [] (fB ++ (g ++ t)) (by simp [List.length_append]; omega)]
  show scanBuf ([] ++ (fB ++ (g ++ t))) = _
  rw [List.nil_append]
  unfold scanBuf
  have hg0 : (fB ++ (g ++ t)).getD 0 0 = 69 := by
    rw [getD_append fB (g ++ t) 0 0 (by omega), h69B]
  have hparse0 : parseIpv4 ((fB ++ (g ++ t)).drop 0) = some (hdrOf fB) := by
    rw [List.drop_zero]
    rw [← parseIpv4_eq_of_agree fB (fB ++ (g ++ t)) (by omega) (by omega) h69B
      (fun k hk => (getD_append fB (g ++ t) k 0 (by omega)).symm)]
    exact hpB
  rw [scanAux_succ (fB ++ (g ++ t)) 0 (by omega) ((fB ++ (g ++ t)).length) [],
    scanStep_noisy (fB ++ (g ++ t)) 0 (hdrOf fB) hg0 hparse0 hnoisy]
  show scanAux (fB ++ (g ++ t)).length (fB ++ (g ++ t)) 1 [] = [frameRec g]
  have hd1 : (fB ++ (g ++ t)).drop 1 = (fB.drop 1) ++ (g ++ t) := by
    rw [List.drop_append_eq_append_drop]
    rw [hlenB]
    simp
  have hstream : (fB ++ (g ++ t)).drop 1 = streamOf [((fB.drop 1), g)] t := by
    rw [hd1]
    simp [streamOf]
  have hslen : (streamOf [((fB.drop 1), g)] t).length ≤ (fB ++ (g ++ t)).length := by
    simp only [streamOf, List.length_append, List.length_drop]
    omega
  have hsegs1 : segsOK [((fB.drop 1), g)] = true := by
    unfold segsOK
    simp only [List.all_cons, List.all_nil, Bool.and_true, Bool.and_eq_true]
    exact ⟨hinnerB, hg⟩
  rw [scan_stream [((fB.drop 1), g)] t (fB ++ (g ++ t)) 1 ((fB ++ (g ++ t)).length) []
    hstream hsegs1 ht htne hslen]
  simp

/-- Claim C5 witness: an unspecified-source frame directly followed by the good
frame exFrame and a noise byte. -/
theorem noise_filter_skips_frame_one_byte_witness :
    (ingest [] (exUnspecSrc ++ (exFrame ++ [0]))).2 = [frameRec exFrame] :=
  noise_filter_skips_frame_one_byte exUnspecSrc exFrame [0] (by decide) (by decide)
    (by decide) (by decide) (by decide) (by decide) (by decide) (by decide) (by decide)

/-- Complete 24-byte frame from 10.0.0.1 to 10.0.0.2 with destination port 80. -/
def exF80 : List Nat :=
  [69, 0, 0, 24, 0, 0, 0, 0, 0, 0, 0, 0, 10, 0, 0, 1, 10, 0, 0, 2, 0, 0, 0, 80]

/-- Claim C6, counterexample to the claim as stated.
The buffer holds one complete filter-safe frame with destination port 80 followed
by a noise byte. The claim says the lookup table maps port 80 to the HTTP tag;
the code has no entry for port 80, so the emitted summary carries no tag at all. -/
theorem port80_gets_no_tag :
    ((ingestAll [exF80 ++ [0]]).2).map (fun r => r.summary) =
      [['1', '0', '.', '0', '.', '0', '.', '1', ' ', '➔', ' ',
        '1', '0', '.', '0', '.', '0', '.', '2']] := by decide

/-- Protocol tag table that the code actually implements: 443, 53 and 22 have
entries, every other port, including 80, yields the empty tag. -/
def portTag (p : Nat) : List Char :=
  if p = 443 then httpsTag else if p = 53 then dnsTag else if p = 22 then sshTag else []

/-- Claim C6, amended: the emitted record of a complete frame of at least 24
bytes carries the tag determined by the destination transport port read from
frame bytes 22 and 23 through the table 443 to HTTPS, 53 to DNS, 22 to SSH, and
the empty tag for every other port; there is no entry for port 80. -/
theorem protocol_tag_table (f t : List Nat) (hf : frameOK f = true) (h24 : 24 ≤ f.length)
    (ht : noiseOK t = true) (htne : t ≠ []) (hsz : f.length + t.length ≤ 8000) :
    (ingest [] (f ++ t)).2 = [frameRec f] ∧
    (frameRec f).summary =
      keyOf (hdrOf f).src (hdrOf f).dst ++ portTag (f.getD 22 0 * 256 + f.getD 23 0) := by
  obtain ⟨h69, h20, h, hp, htot, hnoisy⟩ := frameOK_spec f hf
  constructor
  · rw [ingest_no_evict [] (f ++ t) (by simp [List.length_append]; omega)]
    show scanBuf ([] ++ (f ++ t)) = _
    rw [List.nil_append]
    have e : f ++ t = streamOf [([], f)] t := by simp [streamOf]
    rw [e, scanBuf_stream [([], f)] t (by simp [segsOK, noiseOK, hf]) ht htne]
    rfl
  · rw [frameRec_eq f h hp, hdrOf_eq f h hp]
    show keyOf h.src h.dst ++ tagOf f =
      keyOf h.src h.dst ++ portTag (f.getD 22 0 * 256 + f.getD 23 0)
    congr 1
    unfold tagOf portTag
    rw [if_pos h24]

/-- Claim C6 witness: the port 443 frame exF24 with a noise tail. -/
theorem protocol_tag_table_witness :
    (ingest [] (exF24 ++ [0])).2 = [frameRec exF24] ∧
    (frameRec exF24).summary =
      keyOf (hdrOf exF24).src (hdrOf exF24).dst ++
        portTag (exF24.getD 22 0 * 256 + exF24.getD 23 0) :=
  protocol_tag_table exF24 [0] (by decide) (by decide) (by decide) (by decide) (by decide)

/-! Inventory of everything the scan can emit, used for the record-shape and
flow-key claims. -/

lemma scanStep_noparse (b : List Nat) (i : Nat) (h69 : b.getD i 0 = 69)
    (hp : parseIpv4 (b.drop i) = none) : scanStep b i = (i + 1, none) := by
  unfold scanStep
  rw [if_pos h69, hp]

lemma scanStep_some_inv (b : List Nat) (i i2 : Nat) (r : PacketUpdate)
    (hs : scanStep b i = (i2, some r)) :
    ∃ h, b.getD i 0 = 69 ∧ parseIpv4 (b.drop i) = some h ∧ noisyH h = false ∧
      i + h.totalLen ≤ b.length ∧ r = mkRec b i h := by
  by_cases h69 : b.getD i 0 = 69
  · cases hp : parseIpv4 (b.drop i) with
    | none => rw [scanStep_noparse b i h69 hp] at hs; simp at hs
    | some h =>
      by_cases hn : noisyH h = true
      · rw [scanStep_noisy b i h h69 hp hn] at hs; simp at hs
      · have hnf : noisyH h = false := by
          revert hn
          cases noisyH h <;> simp
        by_cases hle : i + h.totalLen ≤ b.length
        · rw [scanStep_emit b i h h69 hp hnf hle] at hs
          have h2 : some (mkRec b i h) = some r := congrArg Prod.snd hs
          exact ⟨h, h69, rfl, hnf, hle, (Option.some.inj h2).symm⟩
        · rw [scanStep_incomplete b i h h69 hp hnf (by omega)] at hs
          simp at hs
  · rw [scanStep_not69 b i h69] at hs
    simp at hs

lemma scanAux_mem_inv (b : List Nat) :
    ∀ fuel i acc r, r ∈ scanAux fuel b i acc →
    r ∈ acc ∨ ∃ j h, b.getD j 0 = 69 ∧ parseIpv4 (b.drop j) = some h ∧ noisyH h = false ∧
      j + h.totalLen ≤ b.length ∧ r = mkRec b j h := by
  intro fuel
  induction fuel with
  | zero => intro i acc r hr; exact Or.inl hr
  | succ fl ih =>
    intro i acc r hr
    by_cases hc : i < b.length - 20
    · simp only [scanAux] at hr
      rw [if_pos hc] at hr
      rcases ih (scanStep b i).1 (acc ++ ((scanStep b i).2).toList) r hr with hmem | hex
      · rcases List.mem_append.mp hmem with h1 | h2
        · exact Or.inl h1
        · right
          cases ho : (scanStep b i).2 with
          | none => rw [ho] at h2; simp at h2
          | some r2 =>
            rw [ho] at h2
            simp only [Option.toList_some, List.mem_singleton] at h2
            subst h2
            have hstep : scanStep b i = ((scanStep b i).1, some r) := by rw [← ho]
            obtain ⟨h, h69, hp, hn, hle, hr2⟩ := scanStep_some_inv b i (scanStep b i).1 r hstep
            exact ⟨i, h, h69, hp, hn, hle, hr2⟩
      · exact Or.inr hex
    · rw [scanAux_exit b i (by omega) (fl + 1) acc] at hr
      exact Or.inl hr

lemma ingest_bytesOK (b c : List Nat) (hb : bytesOK b = true) (hc : bytesOK c = true) :
    bytesOK (ingest b c).1 = true := by
  by_cases h : 8000 < (b ++ c).length
  · rw [ingest_evict b c h]
    exact bytesOK_drop (b ++ c) 4000 (bytesOK_append b c hb hc)
  · rw [ingest_no_evict b c (by omega)]
    exact bytesOK_append b c hb hc

lemma ingestAll_mem_aux (cs : List (List Nat)) :
    ∀ b out r, r ∈ (cs.foldl ingestStep (b, out)).2 →
    r ∈ out ∨ ∃ b2, r ∈ scanBuf b2 ∧
      (bytesOK b = true → cs.all bytesOK = true → bytesOK b2 = true) := by
  induction cs with
  | nil => intro b out r hr; exact Or.inl (by simpa using hr)
  | cons c rest ih =>
    intro b out r hr
    simp only [List.foldl_cons, ingestStep] at hr
    rcases ih (ingest b c).1 (out ++ (ingest b c).2) r hr with hmem | ⟨b2, hb2, himp⟩
    · rcases List.mem_append.mp hmem with h1 | h2
      · exact Or.inl h1
      · right
        refine ⟨(ingest b c).1, h2, ?_⟩
        intro hb hcs
        simp only [List.all_cons, Bool.and_eq_true] at hcs
        exact ingest_bytesOK b c hb hcs.1
    · right
      refine ⟨b2, hb2, ?_⟩
      intro hb hcs
      simp only [List.all_cons, Bool.and_eq_true] at hcs
      exact himp (ingest_bytesOK b c hb hcs.1) hcs.2

lemma ingestAll_mem (cs : List (List Nat)) (r : PacketUpdate) (hr : r ∈ (ingestAll cs).2) :
    ∃ b2, r ∈ scanBuf b2 ∧ (cs.all bytesOK = true → bytesOK b2 = true) := by
  unfold ingestAll at hr
  rcases ingestAll_mem_aux cs [] [] r hr with hmem | ⟨b2, hb2, himp⟩
  · simp at hmem
  · exact ⟨b2, hb2, fun hcs => himp rfl hcs⟩

lemma emitted_mkRec (cs : List (List Nat)) (r : PacketUpdate) (hr : r ∈ (ingestAll cs).2) :
    ∃ b2 j h, b2.getD j 0 = 69 ∧ parseIpv4 (b2.drop j) = some h ∧ noisyH h = false ∧
      j + h.totalLen ≤ b2.length ∧ r = mkRec b2 j h ∧
      (cs.all bytesOK = true → bytesOK b2 = true) := by
  obtain ⟨b2, hb2, himp⟩ := ingestAll_mem cs r hr
  unfold scanBuf at hb2
  rcases scanAux_mem_inv b2 (b2.length + 1) 0 [] r hb2 with hmem | ⟨j, h, h69, hp, hn, hle, hrec⟩
  · simp at hmem
  · exact ⟨b2, j, h, h69, hp, hn, hle, hrec, himp⟩

/-- Buffer holding one filter-safe header that declares total length zero,
followed by noise; 23 bytes in total so the scan loop runs. -/
def exZeroLen : List Nat :=
  [69, 0, 0, 0, 0, 0, 0, 0, 0, 0, 0, 0, 10, 0, 0, 1, 10, 0, 0, 2, 0, 0, 0]

/-- Claim C10, counterexample to the claim as stated.
The candidate at offset 0 of exZeroLen parses to a filter-safe header whose total
length field is zero; the code slices zero bytes and emits a record whose
raw bytes are empty, hence do not begin with 0x45. In the source this input also
jams the scan loop, which advances the cursor by the zero total length and keeps
emitting the same empty record. -/
theorem zero_length_record_emitted :
    (((ingestAll [exZeroLen]).2).map (fun r => r.raw_data)).head? = some [] ∧
    0 < ((ingestAll [exZeroLen]).2).length := by decide

/-- Claim C10, amended: every emitted record slices exactly the declared total
length from the frame start, so its raw bytes begin with 0x45 whenever they are
nonempty, and whenever they hold at least a full header they parse to a header
whose total length field is exactly their length. Records with empty raw bytes
are emitted when a filter-safe header declares total length zero. -/
theorem emitted_record_raw_shape (cs : List (List Nat)) (r : PacketUpdate)
    (hr : r ∈ (ingestAll cs).2) :
    (r.raw_data ≠ [] → r.raw_data.getD 0 0 = 69) ∧
    (20 ≤ r.raw_data.length →
      ∃ h, parseIpv4 r.raw_data = some h ∧ h.totalLen = r.raw_data.length) := by
  obtain ⟨b2, j, h, h69, hp, hn, hle, hrec, _⟩ := emitted_mkRec cs r hr
  subst hrec
  have hlenraw : ((b2.drop j).take h.totalLen).length = h.totalLen := by
    rw [List.length_take, List.length_drop]
    omega
  constructor
  · intro hne
    have h1le : 1 ≤ h.totalLen := by
      by_contra hz
      have hz0 : h.totalLen = 0 := by omega
      apply hne
      show (b2.drop j).take h.totalLen = []
      rw [hz0]
      simp
    show ((b2.drop j).take h.totalLen).getD 0 0 = 69
    rw [getD_take _ _ 0 0 (by omega)]
    have e := getD_drop b2 j 0 0
    rw [Nat.add_zero] at e
    rw [e, h69]
  · intro h20
    have h20t : 20 ≤ h.totalLen := by
      have e : (mkRec b2 j h).raw_data = (b2.drop j).take h.totalLen := rfl
      rw [e, hlenraw] at h20
      exact h20
    have h690 : ((b2.drop j).take h.totalLen).getD 0 0 = 69 := by
      rw [getD_take _ _ 0 0 (by omega)]
      have e := getD_drop b2 j 0 0
      rw [Nat.add_zero] at e
      rw [e, h69]
    refine ⟨h, ?_, ?_⟩
    · show parseIpv4 ((b2.drop j).take h.totalLen) = some h
      rw [parseIpv4_eq_of_agree ((b2.drop j).take h.totalLen) (b2.drop j)
        (by rw [hlenraw]; omega) (by rw [List.length_drop]; omega) h690
        (fun k hk => getD_take (b2.drop j) h.totalLen k 0 (by omega))]
      exact hp
    · show h.totalLen = ((b2.drop j).take h.totalLen).length
      rw [hlenraw]

/-- Claim C10 witness: the single record emitted for the frame exFrame. -/
theorem emitted_record_raw_shape_witness :
    ((frameRec exFrame).raw_data ≠ [] → (frameRec exFrame).raw_data.getD 0 0 = 69) ∧
    (20 ≤ (frameRec exFrame).raw_data.length →
      ∃ h, parseIpv4 (frameRec exFrame).raw_data = some h ∧
        h.totalLen = (frameRec exFrame).raw_data.length) :=
  emitted_record_raw_shape [exFrame ++ [0]] (frameRec exFrame) (by decide)

/-! Aggregation state lemmas for the selection claim. -/

lemma bump_other (m : List (List Char × Nat)) (k1 k2 : List Char) (hne : k1 ≠ k2) :
    lookupC (bump m k1) k2 = lookupC m k2 := by
  induction m with
  | nil =>
    show lookupC [(k1, 1)] k2 = lookupC [] k2
    simp only [lookupC]
    rw [if_neg hne]
  | cons e rest ih =>
    simp only [bump]
    by_cases he : e.1 = k1
    · rw [if_pos he]
      simp only [lookupC]
      have hne2 : ¬ (e.1 = k2) := by rw [he]; exact hne
      rw [if_neg hne2, if_neg hne2]
    · rw [if_neg he]
      simp only [lookupC]
      by_cases he2 : e.1 = k2
      · rw [if_pos he2, if_pos he2]
      · rw [if_neg he2, if_neg he2]
        exact ih

/-- Claim C7: handling one incoming record whose flow key is new and different
from the selected flow leaves the selected FlowKey unchanged and leaves its
stored count unchanged; only its position in the sorted listing, re-resolved by
identity each draw, may move. -/
theorem selection_stable_under_new_flow (st : AppSt) (u : PacketUpdate) (k : List Char)
    (c : Nat) (hsel : st.selected_stream = some k)
    (hmem : lookupC st.conversations k = some c)
    (hfresh : lookupC st.conversations (ipPair u.summary) = none)
    (hnew : ipPair u.summary ≠ k) :
    (applyUpdate st u).selected_stream = some k ∧
    lookupC (applyUpdate st u).conversations k = some c := by
  constructor
  · show st.selected_stream = some k
    exact hsel
  · show lookupC (bump st.conversations (ipPair u.summary)) k = some c
    rw [bump_other st.conversations (ipPair u.summary) k hnew]
    exact hmem

/-- Claim C7 witness: a one-conversation state with that conversation selected,
receiving a record of a fresh unrelated flow. -/
theorem selection_stable_under_new_flow_witness :
    (applyUpdate ⟨[(['a'], 1)], [], some ['a']⟩ ⟨['b'], []⟩).selected_stream = some ['a'] ∧
    lookupC (applyUpdate ⟨[(['a'], 1)], [], some ['a']⟩ ⟨['b'], []⟩).conversations ['a'] =
      some 1 :=
  selection_stable_under_new_flow ⟨[(['a'], 1)], [], some ['a']⟩ ⟨['b'], []⟩ ['a'] 1
    (by decide) (by decide) (by decide) (by decide)

/-! Chunking structure of format_hex. -/

lemma chunks16_short (l : List Nat) (hne : l ≠ []) (hle : l.length ≤ 16) :
    chunks16 l = [l] := by
  cases l with
  | nil => exact absurd rfl hne
  | cons x xs =>
    rw [chunks16]
    have h15 : xs.length ≤ 15 := by
      simp only [List.length_cons] at hle
      omega
    rw [List.take_of_length_le h15, List.drop_eq_nil_of_le (by omega)]
    rw [show chunks16 [] = [] from by rw [chunks16]]

lemma chunks16_two (l : List Nat) (h16 : 16 < l.length) (h32 : l.length ≤ 32) :
    chunks16 l = [l.take 16, l.drop 16] := by
  cases l with
  | nil => simp at h16
  | cons x xs =>
    rw [chunks16]
    rw [chunks16_short (xs.drop 15)
      (by
        have : (xs.drop 15).length = xs.length - 15 := List.length_drop 15 xs
        intro hnil
        rw [hnil] at this
        simp only [List.length_nil] at this
        simp only [List.length_cons] at h16
        omega)
      (by
        rw [List.length_drop]
        simp only [List.length_cons] at h32
        omega)]
    have e1 : x :: xs.take 15 = (x :: xs).take 16 := rfl
    have e2 : xs.drop 15 = (x :: xs).drop 16 := rfl
    rw [e1, e2]

/-- Claim C8: format_hex of an 18-byte input is exactly two rows; each row holds
its bytes as two lowercase hexadecimal digits followed by a space, the short
second row carries fourteen blank three-character cells so the separator and the
ASCII column stay aligned, and the ASCII column holds exactly the bytes of that
row, rendered literally for graphic bytes and the space byte and as a dot
otherwise. -/
theorem format_hex_two_rows_18 (d : List Nat) (h18 : d.length = 18)
    (hb : ∀ b, b ∈ d → b < 256) :
    format_hex d =
      ((d.take 16).map hexByte).flatten ++ [' ', '|', ' '] ++ (d.take 16).map asciiR ++ ['\n']
        ++ (((d.drop 16).map hexByte).flatten ++ List.replicate 42 ' '
            ++ [' ', '|', ' '] ++ (d.drop 16).map asciiR ++ ['\n']) := by
  unfold format_hex
  rw [chunks16_two d (by omega) (by omega)]
  simp only [List.map_cons, List.map_nil, List.flatten_cons, List.flatten_nil, List.append_nil]
  unfold hexRow
  have ht : (d.take 16).length = 16 := by rw [List.length_take]; omega
  have hd2 : (d.drop 16).length = 2 := by rw [List.length_drop]; omega
  rw [ht, hd2]
  have e0 : (List.replicate (16 - 16) ([' ', ' ', ' '] : List Char)).flatten = [] := rfl
  have e14 : (List.replicate (16 - 2) ([' ', ' ', ' '] : List Char)).flatten =
      List.replicate 42 ' ' := by decide
  rw [e0, e14]
  simp [List.append_assoc]

/-- Concrete 18-byte input mixing graphic, space, control and high bytes. -/
def exHexData : List Nat := [0, 1, 65, 66, 97, 127, 32, 255, 10, 11, 12, 13, 14, 15, 16, 17, 200, 33]

/-- Claim C8 witness: the two-row rendering of the 18-byte example. -/
theorem format_hex_two_rows_18_witness :
    format_hex exHexData =
      ((exHexData.take 16).map hexByte).flatten ++ [' ', '|', ' ']
        ++ (exHexData.take 16).map asciiR ++ ['\n']
        ++ (((exHexData.drop 16).map hexByte).flatten ++ List.replicate 42 ' '
            ++ [' ', '|', ' '] ++ (exHexData.drop 16).map asciiR ++ ['\n']) :=
  format_hex_two_rows_18 exHexData (by decide) (by decide)

/-! Character-level facts about the summary text, used for the flow key claim. -/

lemma natCharsAux_digits (fuel : Nat) :
    ∀ n c, c ∈ natCharsAux fuel n → ∃ d, d < 10 ∧ c = digitChar d := by
  induction fuel with
  | zero => intro n c hc; simp [natCharsAux] at hc
  | succ fl ih =>
    intro n c hc
    simp only [natCharsAux] at hc
    by_cases h : n < 10
    · rw [if_pos h] at hc
      simp only [List.mem_singleton] at hc
      exact ⟨n, h, hc⟩
    · rw [if_neg h] at hc
      rcases List.mem_append.mp hc with h1 | h2
      · exact ih (n / 10) c h1
      · simp only [List.mem_singleton] at h2
        exact ⟨n % 10, Nat.mod_lt n (by omega), h2⟩

lemma natChars_digits (n : Nat) (c : Char) (hc : c ∈ natChars n) :
    ∃ d, d < 10 ∧ c = digitChar d := natCharsAux_digits (n + 1) n c hc

lemma digitChar_props : ∀ d, d < 10 →
    digitChar d ≠ ' ' ∧ digitChar d ≠ '[' ∧ digitChar d ≠ '.' := by decide

lemma natChars_ne_nil (n : Nat) : natChars n ≠ [] := by
  unfold natChars
  simp only [natCharsAux]
  by_cases h : n < 10
  · rw [if_pos h]; simp
  · rw [if_neg h]; simp

lemma natChars_no_dot (n : Nat) : ∀ c, c ∈ natChars n → c ≠ '.' := by
  intro c hc
  obtain ⟨d, hd, rfl⟩ := natChars_digits n c hc
  exact (digitChar_props d hd).2.2

lemma addrChars_chars (a : Addr) (c : Char) (hc : c ∈ addrChars a) :
    (∃ d, d < 10 ∧ c = digitChar d) ∨ c = '.' := by
  unfold addrChars at hc
  simp only [List.mem_append, List.mem_cons] at hc
  rcases hc with h | h | h | h | h | h | h
  · exact Or.inl (natChars_digits a.o1 c h)
  · exact Or.inr h
  · exact Or.inl (natChars_digits a.o2 c h)
  · exact Or.inr h
  · exact Or.inl (natChars_digits a.o3 c h)
  · exact Or.inr h
  · exact Or.inl (natChars_digits a.o4 c h)

lemma addrChars_no_space (a : Addr) : ∀ c, c ∈ addrChars a → c ≠ ' ' := by
  intro c hc
  rcases addrChars_chars a c hc with ⟨d, hd, rfl⟩ | rfl
  · exact (digitChar_props d hd).1
  · decide

lemma addrChars_no_bracket (a : Addr) : ∀ c, c ∈ addrChars a → c ≠ '[' := by
  intro c hc
  rcases addrChars_chars a c hc with ⟨d, hd, rfl⟩ | rfl
  · exact (digitChar_props d hd).2.1
  · decide

lemma addrChars_ne_nil (a : Addr) : addrChars a ≠ [] := by
  unfold addrChars
  intro h
  rcases List.append_eq_nil.mp h with ⟨h1, _⟩
  exact natChars_ne_nil a.o1 h1

/-- Decimal value read back from a digit string. -/
def charsVal (l : List Char) : Nat := l.foldl (fun a c => a * 10 + (c.toNat - 48)) 0

lemma natChars_val : ∀ n, n < 256 → charsVal (natChars n) = n := by decide

lemma natChars_inj (a b : Nat) (ha : a < 256) (hb : b < 256) (h : natChars a = natChars b) :
    a = b := by
  have h1 := natChars_val a ha
  have h2 := natChars_val b hb
  rw [h] at h1
  omega

lemma append_sep_inj (sep : Char) (x1 : List Char) :
    ∀ x2 r1 r2 : List Char, (∀ c, c ∈ x1 → c ≠ sep) → (∀ c, c ∈ x2 → c ≠ sep) →
    x1 ++ sep :: r1 = x2 ++ sep :: r2 → x1 = x2 ∧ r1 = r2 := by
  induction x1 with
  | nil =>
    intro x2 r1 r2 _ h2 he
    cases x2 with
    | nil =>
      simp only [List.nil_append, List.cons.injEq] at he
      exact ⟨rfl, he.2⟩
    | cons c x2t =>
      simp only [List.nil_append, List.cons_append, List.cons.injEq] at he
      exact absurd he.1.symm (h2 c (List.mem_cons_self _ _))
  | cons c x1t ih =>
    intro x2 r1 r2 h1 h2 he
    cases x2 with
    | nil =>
      simp only [List.cons_append, List.nil_append, List.cons.injEq] at he
      exact absurd he.1 (h1 c (List.mem_cons_self _ _))
    | cons c2 x2t =>
      simp only [List.cons_append, List.cons.injEq] at he
      obtain ⟨rfl, he2⟩ := he
      obtain ⟨hx, hr⟩ := ih x2t r1 r2 (fun d hd => h1 d (List.mem_cons_of_mem _ hd))
        (fun d hd => h2 d (List.mem_cons_of_mem _ hd)) he2
      exact ⟨by rw [hx], hr⟩

lemma addrChars_inj (A B : Addr) (hA : addrOK A = true) (hB : addrOK B = true)
    (h : addrChars A = addrChars B) : A = B := by
  unfold addrChars at h
  obtain ⟨h1, h2⟩ := append_sep_inj '.' _ _ _ _ (natChars_no_dot A.o1) (natChars_no_dot B.o1) h
  obtain ⟨h3, h4⟩ := append_sep_inj '.' _ _ _ _ (natChars_no_dot A.o2) (natChars_no_dot B.o2) h2
  obtain ⟨h5, h6⟩ := append_sep_inj '.' _ _ _ _ (natChars_no_dot A.o3) (natChars_no_dot B.o3) h4
  simp only [addrOK, Bool.and_eq_true, decide_eq_true_eq] at hA hB
  have e1 := natChars_inj A.o1 B.o1 hA.1.1.1 hB.1.1.1 h1
  have e2 := natChars_inj A.o2 B.o2 hA.1.1.2 hB.1.1.2 h3
  have e3 := natChars_inj A.o3 B.o3 hA.1.2 hB.1.2 h5
  have e4 := natChars_inj A.o4 B.o4 hA.2 hB.2 h6
  cases A with
  | mk a1 a2 a3 a4 =>
    cases B with
    | mk b1 b2 b3 b4 => simp_all

lemma keyOf_direction (A B : Addr) (hA : addrOK A = true) (hB : addrOK B = true)
    (hne : A ≠ B) : keyOf A B ≠ keyOf B A := by
  intro h
  unfold keyOf at h
  obtain ⟨h1, _⟩ := append_sep_inj ' ' _ _ _ _ (addrChars_no_space A) (addrChars_no_space B) h
  exact hne (addrChars_inj A B hA hB h1)

lemma findSub_skip (s t : List Char) (h : ∀ c, c ∈ s → c ≠ ' ') :
    findSub (s ++ t) [' ', '['] = (findSub t [' ', '[']).map (· + s.length) := by
  induction s with
  | nil =>
    simp only [List.nil_append, List.length_nil]
    cases ho : findSub t [' ', '['] with
    | none => rfl
    | some p => simp
  | cons c s2 ih =>
    have hc : c ≠ ' ' := h c (List.mem_cons_self c s2)
    simp only [List.cons_append]
    rw [findSub]
    rw [if_neg (by
      simp only [List.isPrefixOf, Bool.and_eq_true, beq_iff_eq]
      intro hx
      exact hc hx.1.symm)]
    rw [ih (fun c2 hc2 => h c2 (List.mem_cons_of_mem c hc2))]
    cases ho : findSub t [' ', '['] with
    | none => rfl
    | some p =>
      show some (p + s2.length + 1) = some (p + (s2.length + 1))
      exact congrArg some (by omega)

lemma isPrefixOf_one_false (p1 p2 c1 : Char) (rest : List Char) (h : p1 ≠ c1) :
    ([p1, p2].isPrefixOf (c1 :: rest)) = false := by
  have hb : (p1 == c1) = false := beq_eq_false_iff_ne.mpr h
  cases rest with
  | nil => simp [List.isPrefixOf, hb]
  | cons c2 rest2 => simp [List.isPrefixOf, hb]

lemma isPrefixOf_two_false (p1 p2 c1 c2 : Char) (rest : List Char) (h : p2 ≠ c2) :
    ([p1, p2].isPrefixOf (c1 :: c2 :: rest)) = false := by
  have hb : (p2 == c2) = false := beq_eq_false_iff_ne.mpr h
  simp [List.isPrefixOf, hb]

lemma findSub_arrow (Z : List Char) (z0 : Char) (Z2 : List Char) (hz : Z = z0 :: Z2)
    (hz0 : z0 ≠ '[') :
    findSub (' ' :: '➔' :: ' ' :: Z) [' ', '['] = (findSub Z [' ', '[']).map (· + 3) := by
  subst hz
  rw [findSub, if_neg (by
    rw [isPrefixOf_two_false ' ' '[' ' ' '➔' (' ' :: z0 :: Z2) (by decide)]
    exact Bool.false_ne_true)]
  rw [findSub, if_neg (by
    rw [isPrefixOf_one_false ' ' '[' '➔' (' ' :: z0 :: Z2) (by decide)]
    exact Bool.false_ne_true)]
  rw [findSub, if_neg (by
    rw [isPrefixOf_two_false ' ' '[' ' ' z0 Z2 (Ne.symm hz0)]
    exact Bool.false_ne_true)]
  cases ho : findSub (z0 :: Z2) [' ', '['] with
  | none => rfl
  | some p =>
    show some (p + 1 + 1 + 1) = some (p + 3)
    exact congrArg some (by omega)

lemma findSub_key (A B : Addr) (tag : List Char)
    (htag : tag = [] ∨ ∃ r, tag = ' ' :: '[' :: r) :
    ipPair (keyOf A B ++ tag) = keyOf A B := by
  obtain ⟨b0, B2, hB0, hb0⟩ : ∃ b0 B2, addrChars B = b0 :: B2 ∧ b0 ≠ '[' := by
    cases hAB : addrChars B with
    | nil => exact absurd hAB (addrChars_ne_nil B)
    | cons b0 B2 =>
      refine ⟨b0, B2, rfl, ?_⟩
      have hm : b0 ∈ addrChars B := by rw [hAB]; exact List.mem_cons_self _ _
      exact addrChars_no_bracket B b0 hm
  have e1 : keyOf A B ++ tag =
      addrChars A ++ (' ' :: '➔' :: ' ' :: (addrChars B ++ tag)) := by
    unfold keyOf
    simp [List.append_assoc]
  have e2 : findSub (keyOf A B ++ tag) [' ', '['] =
      (findSub (' ' :: '➔' :: ' ' :: (addrChars B ++ tag)) [' ', '[']).map
        (· + (addrChars A).length) := by
    rw [e1]
    exact findSub_skip (addrChars A) _ (addrChars_no_space A)
  have e3 := findSub_arrow (addrChars B ++ tag) b0 (B2 ++ tag) (by rw [hB0]; rfl) hb0
  have e4 : findSub (addrChars B ++ tag) [' ', '['] =
      (findSub tag [' ', '[']).map (· + (addrChars B).length) :=
    findSub_skip (addrChars B) tag (addrChars_no_space B)
  have hkl : (keyOf A B).length = (addrChars A).length + (3 + (addrChars B).length) := by
    unfold keyOf
    simp only [List.length_append, List.length_cons]
    omega
  rcases htag with rfl | ⟨r, rfl⟩
  · have ht0 : findSub ([] : List Char) [' ', '['] = none := by decide
    unfold ipPair
    rw [e2, e3, e4, ht0]
    show keyOf A B ++ [] = keyOf A B
    exact List.append_nil _
  · have ht1 : findSub (' ' :: '[' :: r) [' ', '['] = some 0 := by
      rw [findSub, if_pos (by simp [List.isPrefixOf])]
    unfold ipPair
    rw [e2, e3, e4, ht1]
    show (keyOf A B ++ (' ' :: '[' :: r)).take
      (0 + (addrChars B).length + 3 + (addrChars A).length) = keyOf A B
    have hidx : 0 + (addrChars B).length + 3 + (addrChars A).length = (keyOf A B).length := by
      rw [hkl]
      omega
    rw [hidx, List.take_left]

lemma tagOf_shape (raw : List Nat) : tagOf raw = [] ∨ ∃ r, tagOf raw = ' ' :: '[' :: r := by
  unfold tagOf
  by_cases h24 : 24 ≤ raw.length
  · rw [if_pos h24]
    by_cases p1 : raw.getD 22 0 * 256 + raw.getD 23 0 = 443
    · rw [if_pos p1]
      exact Or.inr ⟨['H', 'T', 'T', 'P', 'S', ']'], rfl⟩
    · rw [if_neg p1]
      by_cases p2 : raw.getD 22 0 * 256 + raw.getD 23 0 = 53
      · rw [if_pos p2]
        exact Or.inr ⟨['D', 'N', 'S', ']'], rfl⟩
      · rw [if_neg p2]
        by_cases p3 : raw.getD 22 0 * 256 + raw.getD 23 0 = 22
        · rw [if_pos p3]
          exact Or.inr ⟨['S', 'S', 'H', ']'], rfl⟩
        · rw [if_neg p3]
          exact Or.inl rfl
  · rw [if_neg h24]
    exact Or.inl rfl

/-- Claim C9: the conversation key of every emitted record is the source, arrow,
destination text taken from the record summary before any tag opener; packets
from A to B and packets from B to A therefore live under two distinct flow keys
whose counts evolve independently. -/
theorem flow_key_direction_sensitive :
    (∀ cs : List (List Nat), cs.all bytesOK = true → ∀ r, r ∈ (ingestAll cs).2 →
      ∃ A B, addrOK A = true ∧ addrOK B = true ∧
        r.summary = keyOf A B ++ tagOf r.raw_data ∧ ipPair r.summary = keyOf A B) ∧
    (∀ A B, addrOK A = true → addrOK B = true → A ≠ B → keyOf A B ≠ keyOf B A) ∧
    (∀ m : List (List Char × Nat), ∀ k1 k2, k1 ≠ k2 →
      lookupC (bump m k1) k2 = lookupC m k2) := by
  refine ⟨?_, fun A B hA hB hne => keyOf_direction A B hA hB hne,
    fun m k1 k2 hne => bump_other m k1 k2 hne⟩
  intro cs hcs r hr
  obtain ⟨b2, j, h, h69, hp, hn, hle, hrec, himp⟩ := emitted_mkRec cs r hr
  have hb2 : bytesOK b2 = true := himp hcs
  obtain ⟨htl, hsrc, hdst⟩ := parseIpv4_some_fields (b2.drop j) h hp
  have hbd : bytesOK (b2.drop j) = true := bytesOK_drop b2 j hb2
  subst hrec
  refine ⟨h.src, h.dst, ?_, ?_, rfl, ?_⟩
  · rw [hsrc]
    unfold addrOK
    simp only [Bool.and_eq_true, decide_eq_true_eq]
    exact ⟨⟨⟨bytesOK_getD _ _ hbd, bytesOK_getD _ _ hbd⟩, bytesOK_getD _ _ hbd⟩,
      bytesOK_getD _ _ hbd⟩
  · rw [hdst]
    unfold addrOK
    simp only [Bool.and_eq_true, decide_eq_true_eq]
    exact ⟨⟨⟨bytesOK_getD _ _ hbd, bytesOK_getD _ _ hbd⟩, bytesOK_getD _ _ hbd⟩,
      bytesOK_getD _ _ hbd⟩
  · show ipPair (keyOf h.src h.dst ++ tagOf ((b2.drop j).take h.totalLen)) = keyOf h.src h.dst
    exact findSub_key h.src h.dst _ (tagOf_shape _)

/-- Claim C9 witness: the record of exFrame, two concrete opposite keys, and a
concrete count update. -/
theorem flow_key_direction_sensitive_witness :
    (∃ A B, addrOK A = true ∧ addrOK B = true ∧
      (frameRec exFrame).summary = keyOf A B ++ tagOf (frameRec exFrame).raw_data ∧
      ipPair (frameRec exFrame).summary = keyOf A B) ∧
    keyOf ⟨10, 0, 0, 1⟩ ⟨10, 0, 0, 2⟩ ≠ keyOf ⟨10, 0, 0, 2⟩ ⟨10, 0, 0, 1⟩ ∧
    lookupC (bump [] ['a']) ['b'] = lookupC [] ['b'] :=
  ⟨flow_key_direction_sensitive.1 [exFrame ++ [0]] (by decide) (frameRec exFrame) (by decide),
   flow_key_direction_sensitive.2.1 ⟨10, 0, 0, 1⟩ ⟨10, 0, 0, 2⟩ (by decide) (by decide)
     (by decide),
   flow_key_direction_sensitive.2.2 [] ['a'] ['b'] (by decide)⟩

end VShark
